import Mathlib

/-!
Shallow embedding of `src/color_name_picker.py`: a script that assigns
human-friendly names to terminal palette colors by greedily matching a
catalog of named RGB colors against palette entries on squared Euclidean
RGB distance.  The Python string primitives the script uses are modelled
over `List Char` by structural recursion so that every definition
evaluates inside the kernel.
-/

namespace ColorNamePicker

/-! ## Python string primitives -/

/-- The ASCII whitespace characters: Python `str.split()` with no
separator splits on runs of these. -/
def pyIsSpace (c : Char) : Bool :=
  c = ' ' || c = '\t' || c = '\n' || c = '\r' || c = '\x0b' || c = '\x0c'

/-- Worker for `str.split()`: `cur` is the (reversed) token being read. -/
def splitWsGo : List Char → List Char → List (List Char)
  | cur, [] => if cur.isEmpty then [] else [cur.reverse]
  | cur, c :: rest =>
    if pyIsSpace c then
      if cur.isEmpty then splitWsGo [] rest
      else cur.reverse :: splitWsGo [] rest
    else splitWsGo (c :: cur) rest

/-- Python `s.split()` (no separator): maximal whitespace-free tokens. -/
def pySplit (s : String) : List String :=
  (splitWsGo [] s.data).map List.asString

/-- Decimal digits accumulated left to right; fails on a non-digit. -/
def digitsValGo (acc : Nat) : List Char → Option Nat
  | [] => some acc
  | c :: rest =>
    if c.isDigit then digitsValGo (acc * 10 + (c.toNat - 48)) rest else none

/-- Python `int(s)` on a whitespace-free token: an optional sign followed
by one or more decimal digits; anything else raises, modelled as `none`. -/
def pyInt? (s : String) : Option Int :=
  match s.data with
  | [] => none
  | '-' :: rest =>
    if rest.isEmpty then none
    else (digitsValGo 0 rest).map (fun n => -(n : Int))
  | '+' :: rest =>
    if rest.isEmpty then none
    else (digitsValGo 0 rest).map (fun n => (n : Int))
  | l => (digitsValGo 0 l).map (fun n => (n : Int))

/-- Python `name.replace("Grey", "Gray")`: every non-overlapping
occurrence, scanned left to right. -/
def greyToGrayL : List Char → List Char
  | 'G' :: 'r' :: 'e' :: 'y' :: rest => 'G' :: 'r' :: 'a' :: 'y' :: greyToGrayL rest
  | c :: rest => c :: greyToGrayL rest
  | [] => []

def pyReplaceGreyGray (s : String) : String :=
  (greyToGrayL s.data).asString

/-- ASCII lowering, as Python `str.lower()` acts on the names here. -/
def pyLowerChar (c : Char) : Char :=
  if 'A' ≤ c && c ≤ 'Z' then Char.ofNat (c.toNat + 32) else c

def pyLower (s : String) : String :=
  (s.data.map pyLowerChar).asString

/-- Python `s.startswith(p)`. -/
def pyStartsWith (s p : String) : Bool :=
  p.data.isPrefixOf s.data

/-- Python `any(x.isdigit() for x in s)` for ASCII decimal digits. -/
def pyHasDigit (s : String) : Bool :=
  s.data.any Char.isDigit

/-- ASCII uppercasing of one character, as Python `str.upper()` acts on
the names here. -/
def pyUpperChar (c : Char) : Char :=
  if 'a' ≤ c && c ≤ 'z' then Char.ofNat (c.toNat - 32) else c

/-- Python `s[0].upper() + s[1:]`: `none` models the IndexError raised on
an empty string. -/
def pyCapFirst (s : String) : Option String :=
  match s.data with
  | [] => none
  | c :: rest => some ((pyUpperChar c :: rest).asString)

/-! ## Name Normalizer (lines 12-57 of the script) -/

/-- One surviving catalog entry: the tuple
`((int(r), int(g), int(b)), name, has_num)` appended to `all_colors`. -/
structure Candidate where
  rgb : Int × Int × Int
  name : String
  has_num : Bool
deriving DecidableEq, Inhabited

/-- The three accumulators of the normalizer loop.  The two Python sets
are modelled as lists of the elements added to them; note the script
never adds anything to `all_colors_rgbs`. -/
structure NormState where
  all_colors : List Candidate
  all_colors_names : List String
  all_colors_rgbs : List (String × String × String)
deriving DecidableEq

/-- The eight reserved basic color words (lines 31-40). -/
def reservedBasic : List String :=
  ["black", "red", "green", "yellow", "blue", "magenta", "cyan", "white"]

/-- One iteration of the `for rgb, _, name in color_names` loop
(lines 16-53).  `Except.error` models an uncaught Python exception:
unpacking `r, g, b = rgb.split()` with a token count other than three,
or `int(...)` failing on a non-numeric token at the accept step. -/
def normStep (st : NormState) (row : String × String × String) :
    Except Unit NormState :=
  match pySplit row.1 with
  | [r, g, b] =>
    if (r, g, b) ∈ st.all_colors_rgbs then .ok st
    else if row.2.2.data.contains ' ' then .ok st
    else if pyStartsWith row.2.2 "X11" then .ok st
    else if pyStartsWith row.2.2 "Web" then .ok st
    else
      let name := pyReplaceGreyGray row.2.2
      if name ∈ st.all_colors_names then .ok st
      else if pyLower name ∈ reservedBasic then .ok st
      else
        match pyInt? r, pyInt? g, pyInt? b with
        | some ri, some gi, some bi =>
          .ok { all_colors := st.all_colors ++ [⟨(ri, gi, bi), name, pyHasDigit name⟩],
                all_colors_names := st.all_colors_names ++ [name],
                all_colors_rgbs := st.all_colors_rgbs }
        | _, _, _ => .error ()
  | _ => .error ()

/-- The whole normalizer loop over the catalog rows. -/
def normFold (st : NormState) : List (String × String × String) → Except Unit NormState
  | [] => .ok st
  | row :: rows =>
    match normStep st row with
    | .error e => .error e
    | .ok st2 => normFold st2 rows

/-- The candidate list the normalizer builds from the catalog rows
(before the `has_num` sort). -/
def normalize (rows : List (String × String × String)) : Except Unit (List Candidate) :=
  (normFold ⟨[], [], []⟩ rows).map NormState.all_colors

/-! ## Sorting (lines 57 and 113): Python `list.sort(key=...)` is a
stable sort, modelled as stable insertion sort on a `Nat`/`Int` key. -/

/-- Python booleans sort with `False < True`. -/
def boolKey (b : Bool) : Nat :=
  if b then 1 else 0

/-- Stable insertion for `all_colors.sort(key=lambda a: a[2])`: an
element is placed before the first element of equal or larger key, so
equal keys keep their input order. -/
def insertByNum (x : Candidate) : List Candidate → List Candidate
  | [] => [x]
  | y :: ys =>
    if boolKey x.has_num ≤ boolKey y.has_num then x :: y :: ys
    else y :: insertByNum x ys

/-- Line 57: `all_colors.sort(key=lambda a: a[2])`. -/
def sortByNum : List Candidate → List Candidate
  | [] => []
  | x :: xs => insertByNum x (sortByNum xs)

/-! ## Greedy Matcher (lines 61-113) -/

/-- One palette entry of `colors.json`: `colorId` and the `rgb` record. -/
structure PaletteColor where
  colorId : Int
  r : Int
  g : Int
  b : Int
deriving DecidableEq, Inhabited

/-- Line 75: `dist = (r - cr) ** 2 + (g - cg) ** 2 + (b - cb) ** 2`. -/
def sqDist (cand : Candidate) (c : PaletteColor) : Int :=
  (cand.rgb.1 - c.r) ^ 2 + (cand.rgb.2.1 - c.g) ^ 2 + (cand.rgb.2.2 - c.b) ^ 2

/-- The inner `for j, ((r, g, b), name, _has_digit) in enumerate(all_colors)`
loop: the `(dist, i, j)` triples for one palette entry, in scan order. -/
def candPairs (c : PaletteColor) (i : Nat) : Nat → List Candidate → List (Int × Nat × Nat)
  | _, [] => []
  | j, cd :: rest => (sqDist cd c, i, j) :: candPairs c i (j + 1) rest

/-- The outer `for i, current_color in enumerate(colors)` loop. -/
def allPairsGo (cands : List Candidate) : Nat → List PaletteColor → List (Int × Nat × Nat)
  | _, [] => []
  | i, c :: rest => candPairs c i 0 cands ++ allPairsGo cands (i + 1) rest

/-- All `(dist, i, j)` triples of one scan, in scan order:
palette entries outer, candidates inner. -/
def allPairs (colors : List PaletteColor) (cands : List Candidate) :
    List (Int × Nat × Nat) :=
  allPairsGo cands 0 colors

/-- One comparison of the scan (lines 77-79): starting from
`float("inf")` (modelled by `none`), the tracked best is replaced only
when `best_dist > dist` holds strictly. -/
def selStep (best : Option (Int × Nat × Nat)) (p : Int × Nat × Nat) :
    Option (Int × Nat × Nat) :=
  match best with
  | none => some p
  | some q => if p.1 < q.1 then some p else some q

/-- The `best_dist`/`best_index` tracking over one full scan (lines 66-79). -/
def selectBest (l : List (Int × Nat × Nat)) : Option (Int × Nat × Nat) :=
  l.foldl selStep none

/-- One committed match, as appended to `new_colors_names` (lines 103-108).
The ANSI escape string `test_color` stored alongside is a fixed rendering
of `color.colorId` and is omitted. -/
structure MatchResult where
  best_dist : Int
  color : PaletteColor
  better_name : String
deriving DecidableEq, Inhabited

/-- The `while True` matching loop (lines 65-111), with explicit fuel;
`matcher` runs it with fuel `colors.length`, which is enough (each
committed match removes one entry of `colors`).  `none` models the
IndexError of `better_name[0]` on an empty candidate name. -/
def matcherGo : Nat → List PaletteColor → List Candidate → Option (List MatchResult)
  | 0, _, _ => some []
  | fuel + 1, colors, cands =>
    match selectBest (allPairs colors cands) with
    | none => some []
    | some (d, i, j) =>
      match pyCapFirst ((cands.getD j default).name) with
      | none => none
      | some better_name =>
        match matcherGo fuel (colors.eraseIdx i) (cands.eraseIdx j) with
        | none => none
        | some rest => some (⟨d, colors.getD i default, better_name⟩ :: rest)

/-- The matching loop on the working lists, in commit order. -/
def matcher (colors : List PaletteColor) (cands : List Candidate) :
    Option (List MatchResult) :=
  matcherGo colors.length colors cands

/-- Stable insertion for `new_colors_names.sort(key=lambda arg: arg[2]["colorId"])`. -/
def insertById (x : MatchResult) : List MatchResult → List MatchResult
  | [] => [x]
  | y :: ys =>
    if x.color.colorId ≤ y.color.colorId then x :: y :: ys
    else y :: insertById x ys

/-- The final sort by palette id (line 113). -/
def sortById : List MatchResult → List MatchResult
  | [] => []
  | x :: xs => insertById x (sortById xs)

/-- The whole program on its two inputs: normalize the catalog rows, sort
candidates by `has_num`, drop the first 16 palette entries
(`del colors[:16]`, line 63), run the greedy matcher, and sort the
results by palette id. -/
def runProgram (palette : List PaletteColor) (rows : List (String × String × String)) :
    Except Unit (Option (List MatchResult)) :=
  match normalize rows with
  | .error e => .error e
  | .ok cands =>
    .ok ((matcher (palette.drop 16) (sortByNum cands)).map sortById)

/-! ## Properties of the scan (`selectBest`) -/

/-- Folding `selStep` from an already-tracked best either keeps it (when
it is minimal over the rest of the scan) or replaces it by the first
element that is strictly smaller than it and than everything scanned in
between. -/
theorem selFold_some (l : List (Int × Nat × Nat)) :
    ∀ q : Int × Nat × Nat,
      (l.foldl selStep (some q) = some q ∧ ∀ x ∈ l, q.1 ≤ x.1) ∨
      (∃ k, k < l.length ∧ l.foldl selStep (some q) = some (l.getD k default) ∧
        (l.getD k default).1 < q.1 ∧ (∀ x ∈ l, (l.getD k default).1 ≤ x.1) ∧
        ∀ m, m < k → (l.getD k default).1 < (l.getD m default).1) := by
  induction l with
  | nil =>
    intro q
    left
    exact ⟨rfl, by simp⟩
  | cons x xs ih =>
    intro q
    by_cases hlt : x.1 < q.1
    · have hstep : (x :: xs).foldl selStep (some q) = xs.foldl selStep (some x) := by
        simp [List.foldl, selStep, hlt]
      rcases ih x with ⟨heq, hmin⟩ | ⟨k, hk, heq, hklt, hmin, hearly⟩
      · right
        refine ⟨0, by simp, ?_, ?_, ?_, ?_⟩
        · rw [hstep, heq, List.getD_cons_zero]
        · simpa using hlt
        · intro y hy
          rw [List.getD_cons_zero]
          rcases List.mem_cons.mp hy with h | h
          · exact le_of_eq (by rw [h])
          · exact hmin y h
        · intro m hm
          exact absurd hm (Nat.not_lt_zero m)
      · right
        refine ⟨k + 1, by simpa using hk, ?_, ?_, ?_, ?_⟩
        · rw [hstep, heq, List.getD_cons_succ]
        · rw [List.getD_cons_succ]
          exact lt_trans hklt hlt
        · intro y hy
          rw [List.getD_cons_succ]
          rcases List.mem_cons.mp hy with h | h
          · rw [h]; exact le_of_lt hklt
          · exact hmin y h
        · intro m hm
          cases m with
          | zero =>
            rw [List.getD_cons_succ, List.getD_cons_zero]
            exact hklt
          | succ m =>
            rw [List.getD_cons_succ, List.getD_cons_succ]
            exact hearly m (Nat.lt_of_succ_lt_succ hm)
    · have hge : q.1 ≤ x.1 := le_of_not_lt hlt
      have hstep : (x :: xs).foldl selStep (some q) = xs.foldl selStep (some q) := by
        simp [List.foldl, selStep, hlt]
      rcases ih q with ⟨heq, hmin⟩ | ⟨k, hk, heq, hklt, hmin, hearly⟩
      · left
        refine ⟨by rw [hstep, heq], ?_⟩
        intro y hy
        rcases List.mem_cons.mp hy with h | h
        · rw [h]; exact hge
        · exact hmin y h
      · right
        refine ⟨k + 1, by simpa using hk, ?_, ?_, ?_, ?_⟩
        · rw [hstep, heq, List.getD_cons_succ]
        · rw [List.getD_cons_succ]
          exact hklt
        · intro y hy
          rw [List.getD_cons_succ]
          rcases List.mem_cons.mp hy with h | h
          · rw [h]; exact le_trans (le_of_lt hklt) hge
          · exact hmin y h
        · intro m hm
          cases m with
          | zero =>
            rw [List.getD_cons_succ, List.getD_cons_zero]
            exact lt_of_lt_of_le hklt hge
          | succ m =>
            rw [List.getD_cons_succ, List.getD_cons_succ]
            exact hearly m (Nat.lt_of_succ_lt_succ hm)

/-- The winning pair of a scan is the first pair, in scan order, whose
distance is minimal over the whole scan: every pair is at least as far,
and every strictly earlier pair is strictly farther. -/
theorem selectBest_spec (l : List (Int × Nat × Nat)) (p : Int × Nat × Nat)
    (h : selectBest l = some p) :
    ∃ k, k < l.length ∧ l.getD k default = p ∧ (∀ x ∈ l, p.1 ≤ x.1) ∧
      ∀ m, m < k → p.1 < (l.getD m default).1 := by
  cases l with
  | nil => exact absurd h (by simp [selectBest])
  | cons x xs =>
    have h2 : xs.foldl selStep (some x) = some p := by
      simpa [selectBest, List.foldl, selStep] using h
    rcases selFold_some xs x with ⟨heq, hmin⟩ | ⟨k, hk, heq, hklt, hmin, hearly⟩
    · have hp : p = x := by
        rw [heq] at h2
        exact (Option.some.injEq _ _ ▸ h2).symm
      refine ⟨0, by simp, by rw [List.getD_cons_zero, hp], ?_, ?_⟩
      · intro y hy
        rcases List.mem_cons.mp hy with hyx | hyx
        · rw [hp, hyx]
        · rw [hp]; exact hmin y hyx
      · intro m hm
        exact absurd hm (Nat.not_lt_zero m)
    · have hp : p = xs.getD k default := by
        rw [heq] at h2
        exact (Option.some.injEq _ _ ▸ h2).symm
      refine ⟨k + 1, by simpa using hk, by rw [List.getD_cons_succ, hp], ?_, ?_⟩
      · intro y hy
        rcases List.mem_cons.mp hy with hyx | hyx
        · rw [hp, hyx]; exact le_of_lt hklt
        · rw [hp]; exact hmin y hyx
      · intro m hm
        cases m with
        | zero =>
          rw [List.getD_cons_zero, hp]
          exact hklt
        | succ m =>
          rw [List.getD_cons_succ, hp]
          exact hearly m (Nat.lt_of_succ_lt_succ hm)

/-- A scan over at least one pair always tracks some best pair. -/
theorem selFold_ne_none (l : List (Int × Nat × Nat)) (q : Int × Nat × Nat) :
    l.foldl selStep (some q) ≠ none := by
  rcases selFold_some l q with ⟨heq, _⟩ | ⟨_, _, heq, _⟩ <;> simp [heq]

/-- The scan returns `none` exactly when there is no pair to scan. -/
theorem selectBest_eq_none_iff (l : List (Int × Nat × Nat)) :
    selectBest l = none ↔ l = [] := by
  cases l with
  | nil => simp [selectBest]
  | cons x xs =>
    simp only [selectBest, List.foldl, selStep]
    exact ⟨fun h => absurd h (selFold_ne_none xs x), fun h => by cases h⟩

/-- The winning pair is one of the scanned pairs. -/
theorem selectBest_mem (l : List (Int × Nat × Nat)) (p : Int × Nat × Nat)
    (h : selectBest l = some p) : p ∈ l := by
  obtain ⟨k, hk, hget, -, -⟩ := selectBest_spec l p h
  rw [List.getD_eq_getElem l default hk] at hget
  exact hget ▸ List.getElem_mem hk

/-! ## Properties of the cross-product enumeration (`allPairs`) -/

/-- Membership in the inner scan: each triple records the distance of one
candidate to the fixed palette entry, with the candidate offset. -/
theorem mem_candPairs (c : PaletteColor) (i : Nat) :
    ∀ (j0 : Nat) (cands : List Candidate) (p : Int × Nat × Nat),
      p ∈ candPairs c i j0 cands →
      ∃ t, t < cands.length ∧ p = (sqDist (cands.getD t default) c, i, j0 + t) := by
  intro j0 cands
  induction cands generalizing j0 with
  | nil => intro p hp; exact absurd hp (by simp [candPairs])
  | cons cd rest ih =>
    intro p hp
    rcases List.mem_cons.mp hp with h | h
    · exact ⟨0, by simp, by simpa using h⟩
    · obtain ⟨t, ht, hp2⟩ := ih (j0 + 1) p h
      refine ⟨t + 1, by simpa using ht, ?_⟩
      rw [hp2, List.getD_cons_succ]
      congr 2
      omega

/-- Each triple of the inner scan occurs in it: the converse direction. -/
theorem candPairs_mem (c : PaletteColor) (i : Nat) :
    ∀ (j0 t : Nat) (cands : List Candidate), t < cands.length →
      (sqDist (cands.getD t default) c, i, j0 + t) ∈ candPairs c i j0 cands := by
  intro j0 t cands
  induction cands generalizing j0 t with
  | nil => intro ht; exact absurd ht (by simp)
  | cons cd rest ih =>
    intro ht
    cases t with
    | zero => simp [candPairs]
    | succ t =>
      have := ih (j0 + 1) t (by simpa using ht)
      rw [List.getD_cons_succ]
      refine List.mem_cons.mpr (Or.inr ?_)
      have harith : j0 + (t + 1) = j0 + 1 + t := by omega
      rw [harith]
      exact this

/-- Membership in the whole scan: outer index then inner scan. -/
theorem mem_allPairsGo (cands : List Candidate) :
    ∀ (i0 : Nat) (colors : List PaletteColor) (p : Int × Nat × Nat),
      p ∈ allPairsGo cands i0 colors →
      ∃ s, s < colors.length ∧ p ∈ candPairs (colors.getD s default) (i0 + s) 0 cands := by
  intro i0 colors
  induction colors generalizing i0 with
  | nil => intro p hp; exact absurd hp (by simp [allPairsGo])
  | cons c rest ih =>
    intro p hp
    rcases List.mem_append.mp hp with h | h
    · exact ⟨0, by simp, by simpa using h⟩
    · obtain ⟨s, hs, hp2⟩ := ih (i0 + 1) p h
      refine ⟨s + 1, by simpa using hs, ?_⟩
      rw [List.getD_cons_succ]
      have harith : i0 + (s + 1) = i0 + 1 + s := by omega
      rw [harith]
      exact hp2

/-- The converse direction for the whole scan. -/
theorem allPairsGo_mem (cands : List Candidate) :
    ∀ (i0 s : Nat) (colors : List PaletteColor) (p : Int × Nat × Nat),
      s < colors.length → p ∈ candPairs (colors.getD s default) (i0 + s) 0 cands →
      p ∈ allPairsGo cands i0 colors := by
  intro i0 s colors
  induction colors generalizing i0 s with
  | nil => intro p hs; exact absurd hs (by simp)
  | cons c rest ih =>
    intro p hs hp
    cases s with
    | zero =>
      refine List.mem_append.mpr (Or.inl ?_)
      simpa using hp
    | succ s =>
      refine List.mem_append.mpr (Or.inr ?_)
      refine ih (i0 + 1) s p (by simpa using hs) ?_
      rw [List.getD_cons_succ] at hp
      have harith : i0 + 1 + s = i0 + (s + 1) := by omega
      rw [harith]
      exact hp

/-- Every triple of one scan is the distance of the indexed
(palette entry, candidate) pair, with in-range indices. -/
theorem mem_allPairs (colors : List PaletteColor) (cands : List Candidate)
    (p : Int × Nat × Nat) (hp : p ∈ allPairs colors cands) :
    p.2.1 < colors.length ∧ p.2.2 < cands.length ∧
      p.1 = sqDist (cands.getD p.2.2 default) (colors.getD p.2.1 default) := by
  obtain ⟨s, hs, hp2⟩ := mem_allPairsGo cands 0 colors p hp
  obtain ⟨t, ht, hp3⟩ := mem_candPairs (colors.getD s default) (0 + s) 0 cands p hp2
  rw [hp3]
  simp only [Nat.zero_add]
  exact ⟨hs, ht, trivial⟩

/-- Every in-range (palette entry, candidate) pair occurs in the scan. -/
theorem allPairs_mem (colors : List PaletteColor) (cands : List Candidate)
    (s t : Nat) (hs : s < colors.length) (ht : t < cands.length) :
    (sqDist (cands.getD t default) (colors.getD s default), s, t) ∈ allPairs colors cands := by
  have h1 := candPairs_mem (colors.getD s default) s 0 t cands ht
  simp only [Nat.zero_add] at h1
  refine allPairsGo_mem cands 0 s colors _ hs ?_
  simp only [Nat.zero_add]
  exact h1

/-- The scan is empty exactly when one of the working lists is. -/
theorem allPairs_eq_nil_iff (colors : List PaletteColor) (cands : List Candidate) :
    allPairs colors cands = [] ↔ colors = [] ∨ cands = [] := by
  constructor
  · intro h
    by_contra hne
    push_neg at hne
    obtain ⟨hc, hk⟩ := hne
    have hs : 0 < colors.length := List.length_pos.mpr hc
    have ht : 0 < cands.length := List.length_pos.mpr hk
    have := allPairs_mem colors cands 0 0 hs ht
    rw [h] at this
    exact absurd this (List.not_mem_nil _)
  · intro h
    have hnil : ∀ (i : Nat) (cs : List PaletteColor), allPairsGo [] i cs = [] := by
      intro i cs
      induction cs generalizing i with
      | nil => rfl
      | cons c rest ih => simpa [allPairsGo, candPairs] using ih (i + 1)
    rcases h with h | h
    · rw [h]; rfl
    · rw [h]
      exact hnil 0 colors

/-- The indices of the winning pair are in range, and its distance is the
distance of the indexed pair. -/
theorem selectBest_bounds (colors : List PaletteColor) (cands : List Candidate)
    (d : Int) (i j : Nat)
    (h : selectBest (allPairs colors cands) = some (d, i, j)) :
    i < colors.length ∧ j < cands.length ∧
      d = sqDist (cands.getD j default) (colors.getD i default) :=
  mem_allPairs colors cands _ (selectBest_mem _ _ h)

/-! ## Termination of the matching loop -/

/-- Any fuel of at least `colors.length` gives the matching loop's fixed
answer: each committed match removes one entry of `colors`, and once
`colors` is empty the scan is empty and the loop stops. -/
theorem matcherGo_fuel_add :
    ∀ (n f : Nat) (colors : List PaletteColor) (cands : List Candidate),
      colors.length = n → matcherGo (n + f) colors cands = matcherGo n colors cands := by
  intro n
  induction n with
  | zero =>
    intro f colors cands hlen
    have hcnil : colors = [] := List.length_eq_zero.mp hlen
    subst hcnil
    cases f with
    | zero => rfl
    | succ f =>
      have hexp : 0 + (f + 1) = f + 1 := by omega
      rw [hexp]
      have hnone : selectBest (allPairs [] cands) = none := by
        rw [selectBest_eq_none_iff]
        exact (allPairs_eq_nil_iff [] cands).mpr (Or.inl rfl)
      simp [matcherGo, hnone]
  | succ n ih =>
    intro f colors cands hlen
    have hstep : n + 1 + f = (n + f) + 1 := by omega
    rw [hstep]
    cases hsel : selectBest (allPairs colors cands) with
    | none => simp [matcherGo, hsel]
    | some p =>
      obtain ⟨d, i, j⟩ := p
      have hb := selectBest_bounds colors cands d i j hsel
      have hlen2 : (colors.eraseIdx i).length = n := by
        have := List.length_eraseIdx_add_one (l := colors) hb.1
        omega
      simp only [matcherGo, hsel]
      rw [ih f (colors.eraseIdx i) (cands.eraseIdx j) hlen2]

/-- C4: during each full scan, the tracked best pair is replaced only on
strictly smaller distance, so the winner is the first pair in scan order
(palette entries outer, candidates inner — the order of `allPairs`)
achieving the minimal distance: every scanned pair is at least as far,
and every strictly earlier pair is strictly farther, so a later
equal-distance pair never overrides the winner. -/
theorem c4_tie_break_first_min (colors : List PaletteColor) (cands : List Candidate)
    (p : Int × Nat × Nat) (h : selectBest (allPairs colors cands) = some p) :
    ∃ k, k < (allPairs colors cands).length ∧
      (allPairs colors cands).getD k default = p ∧
      (∀ q ∈ allPairs colors cands, p.1 ≤ q.1) ∧
      ∀ m, m < k → p.1 < ((allPairs colors cands).getD m default).1 :=
  selectBest_spec (allPairs colors cands) p h

/-- Witness for C4: the one-entry, one-candidate scan of the end-to-end
scenario, whose winning pair is `(12, 0, 0)`. -/
theorem c4_tie_break_first_min_witness :
    ∃ k, k < (allPairs [⟨99, 10, 10, 10⟩] [⟨(12, 12, 12), "nearblack", false⟩]).length ∧
      (allPairs [⟨99, 10, 10, 10⟩] [⟨(12, 12, 12), "nearblack", false⟩]).getD k default
        = (12, 0, 0) ∧
      (∀ q ∈ allPairs [⟨99, 10, 10, 10⟩] [⟨(12, 12, 12), "nearblack", false⟩],
        ((12, 0, 0) : Int × Nat × Nat).1 ≤ q.1) ∧
      ∀ m, m < k →
        ((12, 0, 0) : Int × Nat × Nat).1
          < ((allPairs [⟨99, 10, 10, 10⟩] [⟨(12, 12, 12), "nearblack", false⟩]).getD m default).1 :=
  c4_tie_break_first_min [⟨99, 10, 10, 10⟩] [⟨(12, 12, 12), "nearblack", false⟩]
    (12, 0, 0) (by rfl)

/-- C9: the Greedy Matcher always terminates — fuel `colors.length` is
enough, and any larger fuel returns the same results; the scan finds no
pair exactly when one working list is empty, and that is exactly when
the loop exits; and on every committed match both working lists shrink
by exactly one element. -/
theorem c9_matcher_terminates (colors : List PaletteColor) (cands : List Candidate)
    (fuel : Nat) :
    matcherGo (colors.length + fuel) colors cands = matcher colors cands ∧
    (selectBest (allPairs colors cands) = none ↔ colors = [] ∨ cands = []) ∧
    (match selectBest (allPairs colors cands) with
     | none => True
     | some (_, i, j) =>
       (colors.eraseIdx i).length + 1 = colors.length ∧
       (cands.eraseIdx j).length + 1 = cands.length) := by
  refine ⟨matcherGo_fuel_add colors.length fuel colors cands rfl, ?_, ?_⟩
  · rw [selectBest_eq_none_iff]
    exact allPairs_eq_nil_iff colors cands
  · cases hsel : selectBest (allPairs colors cands) with
    | none => trivial
    | some p =>
      obtain ⟨d, i, j⟩ := p
      have hb := selectBest_bounds colors cands d i j hsel
      exact ⟨List.length_eraseIdx_add_one hb.1, List.length_eraseIdx_add_one hb.2.1⟩

/-! ## Distance monotonicity of the matching loop -/

/-- Every distance of the scan after one match is committed (both lists
losing one entry) already occurred as a distance of the previous scan. -/
theorem allPairs_erase_dist (colors : List PaletteColor) (cands : List Candidate)
    (i j : Nat) (q : Int × Nat × Nat)
    (hq : q ∈ allPairs (colors.eraseIdx i) (cands.eraseIdx j)) :
    ∃ q' ∈ allPairs colors cands, q'.1 = q.1 := by
  obtain ⟨hs, ht, hd⟩ := mem_allPairs _ _ q hq
  have hcmem : (colors.eraseIdx i).getD q.2.1 default ∈ colors := by
    refine (List.eraseIdx_sublist colors i).subset ?_
    rw [List.getD_eq_getElem _ _ hs]
    exact List.getElem_mem hs
  have hcdmem : (cands.eraseIdx j).getD q.2.2 default ∈ cands := by
    refine (List.eraseIdx_sublist cands j).subset ?_
    rw [List.getD_eq_getElem _ _ ht]
    exact List.getElem_mem ht
  obtain ⟨s2, hs2, hes⟩ := List.mem_iff_getElem.mp hcmem
  obtain ⟨t2, ht2, het⟩ := List.mem_iff_getElem.mp hcdmem
  refine ⟨(sqDist (cands.getD t2 default) (colors.getD s2 default), s2, t2),
    allPairs_mem colors cands s2 t2 hs2 ht2, ?_⟩
  rw [hd]
  simp only
  rw [List.getD_eq_getElem _ _ ht2, List.getD_eq_getElem _ _ hs2, hes, het]

/-- The first result of a run of the loop records the winning distance of
the first scan. -/
theorem matcherGo_head (fuel : Nat) (colors : List PaletteColor) (cands : List Candidate)
    (r : MatchResult) (rest : List MatchResult)
    (h : matcherGo fuel colors cands = some (r :: rest)) :
    ∃ i j, selectBest (allPairs colors cands) = some (r.best_dist, i, j) := by
  cases fuel with
  | zero => exact absurd h (by simp [matcherGo])
  | succ fuel =>
    cases hsel : selectBest (allPairs colors cands) with
    | none =>
      simp only [matcherGo, hsel] at h
      exact absurd h (by simp)
    | some p =>
      obtain ⟨d, i, j⟩ := p
      simp only [matcherGo, hsel] at h
      cases hcap : pyCapFirst ((cands.getD j default).name) with
      | none => rw [hcap] at h; cases h
      | some bn =>
        rw [hcap] at h
        cases hrec : matcherGo fuel (colors.eraseIdx i) (cands.eraseIdx j) with
        | none => rw [hrec] at h; cases h
        | some rest2 =>
          rw [hrec] at h
          injection h with h1
          have h2 : (⟨d, colors.getD i default, bn⟩ : MatchResult) = r :=
            (List.cons.injEq _ _ _ _ ▸ h1).1
          refine ⟨i, j, ?_⟩
          have hbd : r.best_dist = d := by rw [← h2]
          rw [hbd]

/-- C5: in commit order (before the final sort by palette id), the
recorded distances of the Greedy Matcher's results are nondecreasing:
each scan's minimum is taken over a subset of the previous scan's pairs. -/
theorem c5_distance_monotone (fuel : Nat) :
    ∀ (colors : List PaletteColor) (cands : List Candidate) (rs : List MatchResult),
      matcherGo fuel colors cands = some rs →
      List.Chain' (fun a b => a.best_dist ≤ b.best_dist) rs := by
  induction fuel with
  | zero =>
    intro colors cands rs h
    have hnil : ([] : List MatchResult) = rs := by simpa [matcherGo] using h
    rw [← hnil]
    simp
  | succ fuel ih =>
    intro colors cands rs h
    cases hsel : selectBest (allPairs colors cands) with
    | none =>
      simp only [matcherGo, hsel] at h
      have hnil : ([] : List MatchResult) = rs := by simpa using h
      rw [← hnil]
      simp
    | some p =>
      obtain ⟨d, i, j⟩ := p
      simp only [matcherGo, hsel] at h
      cases hcap : pyCapFirst ((cands.getD j default).name) with
      | none => rw [hcap] at h; cases h
      | some bn =>
        rw [hcap] at h
        cases hrec : matcherGo fuel (colors.eraseIdx i) (cands.eraseIdx j) with
        | none => rw [hrec] at h; cases h
        | some rest =>
          rw [hrec] at h
          injection h with h1
          rw [← h1, List.chain'_cons']
          refine ⟨?_, ih _ _ _ hrec⟩
          intro y hy
          cases rest with
          | nil => exact absurd hy (by simp)
          | cons r2 rest2 =>
            have hy2 : r2 = y := by simpa using hy
            subst hy2
            obtain ⟨i2, j2, hsel2⟩ := matcherGo_head fuel _ _ r2 rest2 hrec
            have hmem2 := selectBest_mem _ _ hsel2
            obtain ⟨q', hq'mem, hq'd⟩ := allPairs_erase_dist colors cands i j _ hmem2
            obtain ⟨k, hk, hget, hmin, hearly⟩ := selectBest_spec _ _ hsel
            exact le_of_le_of_eq (hmin q' hq'mem) hq'd

/-- Witness for C5: the single-result run of the end-to-end scenario. -/
theorem c5_distance_monotone_witness :
    List.Chain' (fun a b => a.best_dist ≤ b.best_dist)
      ([⟨12, ⟨99, 10, 10, 10⟩, "Nearblack"⟩] : List MatchResult) :=
  c5_distance_monotone 1 [⟨99, 10, 10, 10⟩] [⟨(12, 12, 12), "nearblack", false⟩]
    [⟨12, ⟨99, 10, 10, 10⟩, "Nearblack"⟩] (by rfl)

/-! ## The `has_num` sort -/

/-- A candidate without a digit is inserted at the front: its key `0` is
minimal. -/
theorem insertByNum_false (x : Candidate) (hx : x.has_num = false)
    (l : List Candidate) : insertByNum x l = x :: l := by
  cases l with
  | nil => rfl
  | cons y ys => simp [insertByNum, hx, boolKey]

/-- A candidate with a digit is inserted after every digit-free
candidate and before every digit-carrying one. -/
theorem insertByNum_true (x : Candidate) (hx : x.has_num = true) :
    ∀ (A B : List Candidate), (∀ a ∈ A, a.has_num = false) →
      (∀ b ∈ B, b.has_num = true) →
      insertByNum x (A ++ B) = A ++ x :: B := by
  intro A
  induction A with
  | nil =>
    intro B _ hB
    cases B with
    | nil => rfl
    | cons b bs =>
      have hb : b.has_num = true := hB b (by simp)
      simp [insertByNum, hx, hb, boolKey]
  | cons a as ih =>
    intro B hA hB
    have ha : a.has_num = false := hA a (by simp)
    have hrec := ih B (fun a2 h2 => hA a2 (List.mem_cons.mpr (Or.inr h2))) hB
    simp only [List.cons_append, insertByNum, hx, ha]
    rw [if_neg (by decide)]
    simp only [List.append_eq]
    rw [hrec]

/-- C8: `all_colors.sort(key=lambda a: a[2])` is a stable sort on the
single boolean key `has_num`, so the sorted candidate list is exactly
the digit-free candidates, in input order, followed by the
digit-carrying candidates, in input order. -/
theorem c8_sort_stable_partition (l : List Candidate) :
    sortByNum l = l.filter (fun c => !c.has_num) ++ l.filter (fun c => c.has_num) := by
  induction l with
  | nil => rfl
  | cons x xs ih =>
    cases hx : x.has_num with
    | false =>
      rw [show sortByNum (x :: xs) = insertByNum x (sortByNum xs) from rfl, ih,
        insertByNum_false x hx]
      simp [List.filter, hx]
    | true =>
      rw [show sortByNum (x :: xs) = insertByNum x (sortByNum xs) from rfl, ih,
        insertByNum_true x hx _ _
          (fun a ha => by simpa using (List.mem_filter.mp ha).2)
          (fun b hb => (List.mem_filter.mp hb).2)]
      simp [List.filter, hx]

/-! ## Uniqueness of the matcher's output -/

theorem map_eraseIdx {α β : Type} (f : α → β) :
    ∀ (l : List α) (i : Nat), (l.eraseIdx i).map f = (l.map f).eraseIdx i := by
  intro l
  induction l with
  | nil => intro i; cases i <;> rfl
  | cons x xs ih =>
    intro i
    cases i with
    | zero => rfl
    | succ i => simp [List.eraseIdx_cons_succ, ih]

/-- Putting the removed element back in front of `eraseIdx` permutes the
original list. -/
theorem getD_cons_eraseIdx_perm {α : Type} [Inhabited α] :
    ∀ (l : List α) (i : Nat), i < l.length →
      List.Perm (l.getD i default :: l.eraseIdx i) l := by
  intro l
  induction l with
  | nil => intro i hi; exact absurd hi (by simp)
  | cons x xs ih =>
    intro i hi
    cases i with
    | zero =>
      rw [List.getD_cons_zero, List.eraseIdx_cons_zero]
    | succ i =>
      rw [List.getD_cons_succ, List.eraseIdx_cons_succ]
      exact (List.Perm.swap x (xs.getD i default) (xs.eraseIdx i)).trans
        ((ih i (by simpa using hi)).cons x)

theorem subperm_map_of_subperm {α β : Type} (f : α → β) {l₁ l₂ : List α}
    (h : l₁.Subperm l₂) : (l₁.map f).Subperm (l₂.map f) := by
  obtain ⟨l, hp, hs⟩ := h
  exact ⟨l.map f, hp.map f, hs.map f⟩

theorem nodup_of_subperm {α : Type} {l₁ l₂ : List α}
    (h : l₁.Subperm l₂) (h₂ : l₂.Nodup) : l₁.Nodup := by
  obtain ⟨l, hp, hs⟩ := h
  exact hp.nodup_iff.mp (List.Nodup.sublist hs h₂)

/-- The palette entries of a run's results are drawn from `colors`
without replacement, and the assigned names are the first-character
capitalizations of candidates drawn from `cands` without replacement. -/
theorem matcherGo_subperm (fuel : Nat) :
    ∀ (colors : List PaletteColor) (cands : List Candidate) (rs : List MatchResult),
      matcherGo fuel colors cands = some rs →
      (rs.map MatchResult.color).Subperm colors ∧
      (rs.map (fun r => some r.better_name)).Subperm
        (cands.map (fun c => pyCapFirst c.name)) := by
  induction fuel with
  | zero =>
    intro colors cands rs h
    have hnil : ([] : List MatchResult) = rs := by simpa [matcherGo] using h
    rw [← hnil]
    exact ⟨List.nil_subperm, List.nil_subperm⟩
  | succ fuel ih =>
    intro colors cands rs h
    cases hsel : selectBest (allPairs colors cands) with
    | none =>
      simp only [matcherGo, hsel] at h
      have hnil : ([] : List MatchResult) = rs := by simpa using h
      rw [← hnil]
      exact ⟨List.nil_subperm, List.nil_subperm⟩
    | some p =>
      obtain ⟨d, i, j⟩ := p
      have hb := selectBest_bounds colors cands d i j hsel
      simp only [matcherGo, hsel] at h
      cases hcap : pyCapFirst ((cands.getD j default).name) with
      | none => rw [hcap] at h; cases h
      | some bn =>
        rw [hcap] at h
        cases hrec : matcherGo fuel (colors.eraseIdx i) (cands.eraseIdx j) with
        | none => rw [hrec] at h; cases h
        | some rest =>
          rw [hrec] at h
          injection h with h1
          rw [← h1]
          obtain ⟨ihc, ihn⟩ := ih _ _ _ hrec
          constructor
          · simp only [List.map]
            have hcons : (colors.getD i default :: rest.map MatchResult.color).Subperm
                (colors.getD i default :: colors.eraseIdx i) :=
              (List.subperm_cons _).mpr ihc
            exact hcons.trans (getD_cons_eraseIdx_perm colors i hb.1).subperm
          · simp only [List.map]
            have hgd : (cands.map (fun c => pyCapFirst c.name)).getD j default
                = some bn := by
              rw [List.getD_eq_getElem _ _ (by simpa using hb.2.1), List.getElem_map,
                ← List.getD_eq_getElem _ _ hb.2.1]
              exact hcap
            have hmap : (rest.map (fun r => some r.better_name)).Subperm
                ((cands.map (fun c => pyCapFirst c.name)).eraseIdx j) := by
              rw [← map_eraseIdx]
              exact ihn
            have hcons := (List.subperm_cons (some bn)).mpr hmap
            have hperm := getD_cons_eraseIdx_perm (cands.map (fun c => pyCapFirst c.name)) j
              (by simpa using hb.2.1)
            rw [hgd] at hperm
            exact hcons.trans hperm.subperm

/-- C2 amended: no `palette_id` occurs in two Match Results provided the
input palette ids are pairwise distinct, and no `assigned_name` occurs in
two Match Results provided the first-character capitalizations of the
candidate names are pairwise distinct.  The normalizer's case-sensitive
name dedup does not guarantee the latter: two retained candidate names
differing only in the case of their first character capitalize to the
same assigned name. -/
theorem c2_uniqueness_amended (colors : List PaletteColor) (cands : List Candidate)
    (rs : List MatchResult)
    (h : matcher colors cands = some rs)
    (hids : (colors.map PaletteColor.colorId).Nodup)
    (hnames : (cands.map (fun c => pyCapFirst c.name)).Nodup) :
    (rs.map (fun r => r.color.colorId)).Nodup ∧
    (rs.map MatchResult.better_name).Nodup := by
  obtain ⟨hc, hn⟩ := matcherGo_subperm colors.length colors cands rs h
  constructor
  · have h2 := subperm_map_of_subperm PaletteColor.colorId hc
    rw [List.map_map] at h2
    exact nodup_of_subperm h2 hids
  · have h2 := nodup_of_subperm hn hnames
    have h4 : ((rs.map MatchResult.better_name).map some).Nodup := by
      rw [List.map_map]
      exact h2
    exact List.Nodup.of_map some h4

/-- Witness for C2's amended claim: the one-result run of the end-to-end
scenario, with distinct ids and distinct capitalized names. -/
theorem c2_uniqueness_amended_witness :
    (([⟨12, ⟨99, 10, 10, 10⟩, "Nearblack"⟩] : List MatchResult).map
      (fun r => r.color.colorId)).Nodup ∧
    (([⟨12, ⟨99, 10, 10, 10⟩, "Nearblack"⟩] : List MatchResult).map
      MatchResult.better_name).Nodup :=
  c2_uniqueness_amended [⟨99, 10, 10, 10⟩] [⟨(12, 12, 12), "nearblack", false⟩]
    [⟨12, ⟨99, 10, 10, 10⟩, "Nearblack"⟩] (by rfl) (by decide) (by decide)

/-- The palette of the C2 counterexample: the 16 reserved entries
followed by two entries that match the two catalog rows exactly. -/
def c2palette : List PaletteColor :=
  [⟨0, 0, 0, 0⟩, ⟨1, 0, 0, 0⟩, ⟨2, 0, 0, 0⟩, ⟨3, 0, 0, 0⟩,
   ⟨4, 0, 0, 0⟩, ⟨5, 0, 0, 0⟩, ⟨6, 0, 0, 0⟩, ⟨7, 0, 0, 0⟩,
   ⟨8, 0, 0, 0⟩, ⟨9, 0, 0, 0⟩, ⟨10, 0, 0, 0⟩, ⟨11, 0, 0, 0⟩,
   ⟨12, 0, 0, 0⟩, ⟨13, 0, 0, 0⟩, ⟨14, 0, 0, 0⟩, ⟨15, 0, 0, 0⟩,
   ⟨100, 0, 0, 0⟩, ⟨101, 200, 200, 200⟩]

/-- C2 counterexample: catalog rows named `"abc"` and `"Abc"` both pass
the case-sensitive dedup, and the run assigns the name `"Abc"` to two
different palette entries, so an `assigned_name` occurs in two Match
Results of one run. -/
theorem c2_assigned_name_collision :
    runProgram c2palette [("0 0 0", "0", "abc"), ("200 200 200", "0", "Abc")]
      = .ok (some [⟨0, ⟨100, 0, 0, 0⟩, "Abc"⟩, ⟨0, ⟨101, 200, 200, 200⟩, "Abc"⟩]) ∧
    ¬ (([⟨0, ⟨100, 0, 0, 0⟩, "Abc"⟩, ⟨0, ⟨101, 200, 200, 200⟩, "Abc"⟩]
        : List MatchResult).map MatchResult.better_name).Nodup :=
  ⟨by rfl, by decide⟩

/-! ## Empty candidate names and the capitalization step -/

/-- The `Grey`-to-`Gray` replacement never empties a non-empty name. -/
theorem greyToGrayL_ne_nil (l : List Char) (h : l ≠ []) : greyToGrayL l ≠ [] := by
  rw [greyToGrayL.eq_def]
  split
  · simp
  · simp
  · exact absurd rfl h

theorem pyReplaceGreyGray_ne_empty (s : String) (h : s ≠ "") :
    pyReplaceGreyGray s ≠ "" := by
  intro hcontra
  have h2 : (pyReplaceGreyGray s).data = ("" : String).data :=
    congrArg String.data hcontra
  have h3 : greyToGrayL s.data = [] := by
    simpa [pyReplaceGreyGray, List.asString] using h2
  by_cases hs : s.data = []
  · exact h (String.ext hs)
  · exact greyToGrayL_ne_nil s.data hs h3

/-- One normalizer step keeps the invariant that every accepted
candidate's name is non-empty, as long as the row's raw name is. -/
theorem normStep_names (st st' : NormState) (row : String × String × String)
    (hrow : row.2.2 ≠ "")
    (hst : ∀ c ∈ st.all_colors, c.name ≠ "")
    (h : normStep st row = .ok st') :
    ∀ c ∈ st'.all_colors, c.name ≠ "" := by
  unfold normStep at h
  repeat' split at h
  all_goals try simp only [] at h
  all_goals repeat' split at h
  all_goals first
    | exact Except.noConfusion h
    | (injection h with h1; subst h1; exact hst)
    | (injection h with h1; subst h1; intro c hc;
       rcases List.mem_append.mp hc with hold | hnew;
       exacts [hst c hold,
         by rw [List.mem_singleton.mp hnew]; exact pyReplaceGreyGray_ne_empty row.2.2 hrow])

/-- The invariant over the whole normalizer run. -/
theorem normFold_names (rows : List (String × String × String)) :
    ∀ (st st' : NormState),
      (∀ row ∈ rows, row.2.2 ≠ "") →
      (∀ c ∈ st.all_colors, c.name ≠ "") →
      normFold st rows = .ok st' →
      ∀ c ∈ st'.all_colors, c.name ≠ "" := by
  induction rows with
  | nil =>
    intro st st' _ hst h
    have h1 : st = st' := by
      simpa [normFold] using h
    rw [← h1]
    exact hst
  | cons row rows ih =>
    intro st st' hrows hst h
    unfold normFold at h
    cases hstep : normStep st row with
    | error e => rw [hstep] at h; cases h
    | ok st2 =>
      rw [hstep] at h
      exact ih st2 st'
        (fun r hr => hrows r (List.mem_cons.mpr (Or.inr hr)))
        (normStep_names st st2 row (hrows row (List.mem_cons.mpr (Or.inl rfl))) hst hstep)
        h

/-- Membership is preserved by the stable insertion. -/
theorem mem_insertByNum (x y : Candidate) :
    ∀ (l : List Candidate), y ∈ insertByNum x l ↔ y = x ∨ y ∈ l := by
  intro l
  induction l with
  | nil => simp [insertByNum]
  | cons z zs ih =>
    by_cases hk : boolKey x.has_num ≤ boolKey z.has_num
    · simp [insertByNum, hk]
    · simp only [insertByNum, if_neg hk, List.mem_cons, ih]
      tauto

/-- Sorting by `has_num` neither adds nor removes candidates. -/
theorem mem_sortByNum (y : Candidate) :
    ∀ (l : List Candidate), y ∈ sortByNum l ↔ y ∈ l := by
  intro l
  induction l with
  | nil => simp [sortByNum]
  | cons x xs ih =>
    show y ∈ insertByNum x (sortByNum xs) ↔ _
    rw [mem_insertByNum, ih]
    simp

/-- If every candidate's name is non-empty, the matching loop never hits
the out-of-bounds capitalization. -/
theorem matcherGo_ne_none (fuel : Nat) :
    ∀ (colors : List PaletteColor) (cands : List Candidate),
      (∀ c ∈ cands, c.name ≠ "") →
      matcherGo fuel colors cands ≠ none := by
  induction fuel with
  | zero => intro colors cands _; simp [matcherGo]
  | succ fuel ih =>
    intro colors cands hcands
    cases hsel : selectBest (allPairs colors cands) with
    | none => simp [matcherGo, hsel]
    | some p =>
      obtain ⟨d, i, j⟩ := p
      have hb := selectBest_bounds colors cands d i j hsel
      have hmem : cands.getD j default ∈ cands := by
        rw [List.getD_eq_getElem _ _ hb.2.1]
        exact List.getElem_mem hb.2.1
      have hname := hcands _ hmem
      have hdata : (cands.getD j default).name.data ≠ [] := by
        intro hd
        exact hname (String.ext hd)
      simp only [matcherGo, hsel]
      cases hd : (cands.getD j default).name.data with
      | nil => exact absurd hd hdata
      | cons ch rest =>
        have hcap : pyCapFirst ((cands.getD j default).name)
            = some ((pyUpperChar ch :: rest).asString) := by
          unfold pyCapFirst
          rw [hd]
        rw [hcap]
        have hsub : ∀ c ∈ cands.eraseIdx j, c.name ≠ "" :=
          fun c hc => hcands c ((List.eraseIdx_sublist cands j).subset hc)
        cases hrec : matcherGo fuel (colors.eraseIdx i) (cands.eraseIdx j) with
        | none => exact absurd hrec (ih _ _ hsub)
        | some rest2 => simp

/-- C10 amended: the normalizer performs no non-empty-name check, and a
row with an empty raw name is accepted with an empty name, on which the
match-time capitalization fails.  For catalogs whose rows all carry
non-empty raw names, every accepted candidate's name is non-empty and
the capitalization step never goes out of bounds. -/
theorem c10_nonempty_names_amended (rows : List (String × String × String))
    (cands : List Candidate)
    (hrows : ∀ row ∈ rows, row.2.2 ≠ "")
    (h : normalize rows = .ok cands) :
    (∀ c ∈ cands, c.name ≠ "") ∧
    (∀ (colors : List PaletteColor) (fuel : Nat),
      matcherGo fuel colors (sortByNum cands) ≠ none) := by
  have hnames : ∀ c ∈ cands, c.name ≠ "" := by
    unfold normalize at h
    cases hfold : normFold ⟨[], [], []⟩ rows with
    | error e => rw [hfold] at h; cases h
    | ok st' =>
      rw [hfold] at h
      have h2 : st'.all_colors = cands := by
        simpa [Except.map] using h
      rw [← h2]
      exact normFold_names rows ⟨[], [], []⟩ st' hrows (by simp) hfold
  refine ⟨hnames, ?_⟩
  intro colors fuel
  exact matcherGo_ne_none fuel colors (sortByNum cands)
    (fun c hc => hnames c ((mem_sortByNum c cands).mp hc))

/-- Witness for C10's amended claim at the end-to-end scenario's catalog. -/
theorem c10_nonempty_names_amended_witness :
    (∀ c ∈ ([⟨(12, 12, 12), "nearblack", false⟩] : List Candidate), c.name ≠ "") ∧
    (∀ (colors : List PaletteColor) (fuel : Nat),
      matcherGo fuel colors (sortByNum [⟨(12, 12, 12), "nearblack", false⟩]) ≠ none) :=
  c10_nonempty_names_amended [("12 12 12", "0", "nearblack")]
    [⟨(12, 12, 12), "nearblack", false⟩] (by decide) (by rfl)

/-- C10 counterexample: a catalog row with an empty raw name passes every
filter and is accepted with an empty name, and the matching loop then
fails at `better_name[0]` — the claimed bounds-safety does not hold for
every catalog input. -/
theorem c10_empty_name_accepted :
    normalize [("1 2 3", "0", "")] = .ok [⟨(1, 2, 3), "", false⟩] ∧
    matcher [⟨99, 0, 0, 0⟩] [⟨(1, 2, 3), "", false⟩] = none :=
  ⟨by rfl, by rfl⟩

/-! ## Parse failures, filters, and concrete runs -/

/-- C1: the script creates the seen-rgb set `all_colors_rgbs` and tests
membership in it, but never adds anything to it, so two catalog rows
with the identical triple `(1, 2, 3)` are both retained and the final
candidate list holds two candidates with the same rgb triple. -/
theorem c1_rgb_dedup_never_populated :
    normalize [("1 2 3", "0", "apple"), ("1 2 3", "0", "banana")]
      = .ok [⟨(1, 2, 3), "apple", false⟩, ⟨(1, 2, 3), "banana", false⟩] ∧
    (⟨(1, 2, 3), "apple", false⟩ : Candidate).rgb
      = (⟨(1, 2, 3), "banana", false⟩ : Candidate).rgb :=
  ⟨by rfl, by rfl⟩

/-- A row whose rgb_string does not split into exactly three tokens
always raises at the tuple unpacking, before any filter runs. -/
theorem normStep_len_ne_three (st : NormState) (row : String × String × String)
    (hlen : (pySplit row.1).length ≠ 3) : normStep st row = .error () := by
  unfold normStep
  split
  · rename_i r g b heq
    exact absurd (by rw [heq] : pySplit row.1 = [r, g, b]) (fun hc => hlen (by simp [hc]))
  · rfl

/-- A step that changes the state accepted its row, so the three tokens
were successfully converted by `int`. -/
theorem normStep_accept_ints (st st' : NormState) (row : String × String × String)
    (h : normStep st row = .ok st') (hne : st' ≠ st) :
    ∃ r g b, pySplit row.1 = [r, g, b] ∧
      (pyInt? r).isSome ∧ (pyInt? g).isSome ∧ (pyInt? b).isSome := by
  unfold normStep at h
  repeat' split at h
  all_goals try simp only [] at h
  all_goals repeat' split at h
  all_goals first
    | exact Except.noConfusion h
    | (injection h with h1; exact absurd h1.symm hne)
    | (injection h with h1;
       exact ⟨_, _, _, by assumption, by simp [*], by simp [*], by simp [*]⟩)

/-- C3 amended: a malformed rgb_string aborts the run only in part.  A
row whose rgb_string does not split into exactly three tokens always
raises (every non-raising step had three tokens); a row with three
non-numeric tokens raises only when it survives the filters and reaches
the accept step (every non-raising step either left the state unchanged
— the row was silently skipped — or converted all three tokens). -/
theorem c3_parse_failure_amended (st st' : NormState) (row : String × String × String)
    (h : normStep st row = .ok st') :
    (pySplit row.1).length = 3 ∧
    (st' = st ∨ ∃ r g b, pySplit row.1 = [r, g, b] ∧
      (pyInt? r).isSome ∧ (pyInt? g).isSome ∧ (pyInt? b).isSome) := by
  constructor
  · by_contra hlen
    rw [normStep_len_ne_three st row hlen] at h
    exact Except.noConfusion h
  · by_cases hne : st' = st
    · exact Or.inl hne
    · exact Or.inr (normStep_accept_ints st st' row h hne)

/-- Witness for C3's amended claim: an accepted well-formed row. -/
theorem c3_parse_failure_amended_witness :
    (pySplit ("1 2 3", "0", "apple").1).length = 3 ∧
    ((⟨[⟨(1, 2, 3), "apple", false⟩], ["apple"], []⟩ : NormState) = ⟨[], [], []⟩ ∨
      ∃ r g b, pySplit ("1 2 3", "0", "apple").1 = [r, g, b] ∧
        (pyInt? r).isSome ∧ (pyInt? g).isSome ∧ (pyInt? b).isSome) :=
  c3_parse_failure_amended ⟨[], [], []⟩ ⟨[⟨(1, 2, 3), "apple", false⟩], ["apple"], []⟩
    ("1 2 3", "0", "apple") (by rfl)

/-- C3 counterexample: the row `("x y z", "0", "bad name")` carries three
non-numeric rgb tokens, yet the run does not fail — the whitespace
filter rejects the row before any `int` conversion, and the normalizer
returns successfully with no candidate.  The malformed row is silently
skipped. -/
theorem c3_malformed_row_skipped :
    normalize [("x y z", "0", "bad name")] = .ok [] := by rfl

/-- The palette of the end-to-end scenario: indices 0-15 are the
reserved entries, index 16 is `{id: 99, rgb: (10, 10, 10)}`. -/
def c6palette : List PaletteColor :=
  [⟨0, 0, 0, 0⟩, ⟨1, 0, 0, 0⟩, ⟨2, 0, 0, 0⟩, ⟨3, 0, 0, 0⟩,
   ⟨4, 0, 0, 0⟩, ⟨5, 0, 0, 0⟩, ⟨6, 0, 0, 0⟩, ⟨7, 0, 0, 0⟩,
   ⟨8, 0, 0, 0⟩, ⟨9, 0, 0, 0⟩, ⟨10, 0, 0, 0⟩, ⟨11, 0, 0, 0⟩,
   ⟨12, 0, 0, 0⟩, ⟨13, 0, 0, 0⟩, ⟨14, 0, 0, 0⟩, ⟨15, 0, 0, 0⟩,
   ⟨99, 10, 10, 10⟩]

/-- C6: the end-to-end scenario: a 17-entry palette whose index 16 is
`{id: 99, rgb: (10, 10, 10)}` and the single catalog row
`"12 12 12\t0\tnearblack"` produce exactly one Match Result with
palette id 99, assigned name `"Nearblack"` and distance 12. -/
theorem c6_end_to_end :
    runProgram c6palette [("12 12 12", "0", "nearblack")]
      = .ok (some [⟨12, ⟨99, 10, 10, 10⟩, "Nearblack"⟩]) := by rfl

/-- C7 counterexample: a carriage return is a whitespace character, yet
the row named `"a\rb"` passes the filter — only the space character is
tested — and is added to the candidate list. -/
theorem c7_cr_name_accepted :
    normalize [("1 2 3", "0", "a\rb")] = .ok [⟨(1, 2, 3), "a\rb", false⟩] := by rfl

/-- C7 amended: the filter tests only the space character `' '`
(U+0020): a row whose raw name contains a space is skipped with the
state unchanged (so it is never added), while names containing other
whitespace characters such as `"a\rb"` pass this filter. -/
theorem c7_space_filter_amended (st : NormState) (row : String × String × String)
    (r g b : String)
    (hsplit : pySplit row.1 = [r, g, b])
    (hspace : row.2.2.data.contains ' ' = true) :
    normStep st row = .ok st := by
  unfold normStep
  rw [hsplit]
  simp only []
  split
  · rfl
  · simp [hspace]

/-- Witness for C7's amended claim: a row named `"a b"`. -/
theorem c7_space_filter_amended_witness :
    normStep ⟨[], [], []⟩ ("1 2 3", "0", "a b") = .ok ⟨[], [], []⟩ :=
  c7_space_filter_amended ⟨[], [], []⟩ ("1 2 3", "0", "a b") "1" "2" "3"
    (by rfl) (by rfl)

end ColorNamePicker
